import Mathlib

/-!
Shallow embedding of `src/main.py` (ygo-pdf-printer): a script that reads
image files from a folder, preloads them in parallel, and lays them out on
A4 pages in a fixed 3x3 grid of 59mm x 86mm cards with 2mm gaps, drawing
cut-guide squares in the gaps.

Definitions mirror the source; theorems settle the frozen claims about it.
-/

namespace YgoPdf

/-! ### Unit constants (reportlab.lib.units / pagesizes)

reportlab defines inch = 72, cm = inch / 2.54, mm = cm * 0.1 and
A4 = (210*mm, 297*mm).  Real arithmetic is modelled with rationals. -/

def inch : ℚ := 72

def cm : ℚ := inch / 2.54

def mm : ℚ := cm * 0.1

/-! ### Grid geometry (`create_pdf_from_folder`, lines 66-80) -/

def card_width : ℚ := 59 * mm

def card_height : ℚ := 86 * mm

def gap : ℚ := 2 * mm

def columns : Nat := 3

def rows : Nat := 3

def grid_width : ℚ := (columns : ℚ) * card_width + ((columns : ℚ) + 1) * gap

def grid_height : ℚ := (rows : ℚ) * card_height + ((rows : ℚ) + 1) * gap

def page_width : ℚ := 210 * mm

def page_height : ℚ := 297 * mm

def left_margin : ℚ := (page_width - grid_width) / 2

def bottom_margin : ℚ := (page_height - grid_height) / 2

/-- Lower-left x of the card cell in column `col` (line 95). -/
def cell_x (col : Nat) : ℚ := left_margin + gap + (col : ℚ) * (card_width + gap)

/-- Lower-left y of the card cell in row `row` (line 97); `rows - 1 - row`
is computed in `Nat`, which agrees with Python's `int` for `row < rows`. -/
def cell_y (row : Nat) : ℚ :=
  bottom_margin + gap + ((rows - 1 - row : Nat) : ℚ) * (card_height + gap)

/-! ### Page count (lines 86-87) -/

def cards_per_page : Nat := 9

/-- `num_pages total = (total + 9 - 1) // 9 if total > 0 else 1` (line 87). -/
def num_pages (total_cards : Nat) : Nat :=
  if total_cards > 0 then (total_cards + cards_per_page - 1) / cards_per_page else 1

/-- Lower-left corners of the cut-guide squares drawn on each page
(lines 126-131): for `v` in `0..columns` and `h` in `0..rows`, a
`gap` by `gap` square outline at
`(left_margin + v*(card_width+gap), bottom_margin + h*(card_height+gap))`. -/
def guide_positions : List (ℚ × ℚ) :=
  (List.range (columns + 1)).flatMap fun (v : Nat) =>
    (List.range (rows + 1)).map fun (h : Nat) =>
      (left_margin + (v : ℚ) * (card_width + gap),
       bottom_margin + (h : ℚ) * (card_height + gap))

/-- Two axis-aligned rectangles (given by lower-left corner, width, height)
have intersecting interiors. -/
def rectsOverlapInterior (x₁ y₁ w₁ h₁ x₂ y₂ w₂ h₂ : ℚ) : Prop :=
  max x₁ x₂ < min (x₁ + w₁) (x₂ + w₂) ∧ max y₁ y₂ < min (y₁ + h₁) (y₂ + h₂)

/-! ### Image enumeration (lines 52-56)

File and folder names are modelled as `List Char`; Python compares strings
lexicographically by code point, which `Char`'s order matches. -/

def supported_extensions : List (List Char) :=
  [".jpg".data, ".jpeg".data, ".png".data, ".bmp".data, ".gif".data]

/-- `f.lower().endswith(supported_extensions)` (line 55): the lower-cased
filename ends with one of the supported extensions.  `Char.toLower` agrees
with Python `str.lower` on the ASCII range, which covers the extensions. -/
def hasSupportedExt (f : List Char) : Bool :=
  supported_extensions.any fun e => e.isSuffixOf (f.map Char.toLower)

/-- `os.path.join(image_folder, f)` (line 54) for a folder without a
trailing separator and a directory entry `f` (entries returned by
`os.listdir` contain no separator and are not absolute). -/
def pathJoin (folder f : List Char) : List Char := folder ++ '/' :: f

/-- Python string comparison `a <= b`: lexicographic on code points. -/
def lexLe : List Char → List Char → Bool
  | [], _ => true
  | _ :: _, [] => false
  | a :: as, b :: bs => if a < b then true else if b < a then false else lexLe as bs

/-- Insert into a `lexLe`-sorted list. -/
def insertSorted (x : List Char) : List (List Char) → List (List Char)
  | [] => [x]
  | y :: ys => if lexLe x y then x :: y :: ys else y :: insertSorted x ys

/-- `image_paths.sort()` (line 56), modelled as insertion sort under
`lexLe`. -/
def sortPaths (l : List (List Char)) : List (List Char) := l.foldr insertSorted []

/-- Lines 54-56: full paths of the entries with a supported extension, the
full paths sorted lexicographically. -/
def image_paths_of (folder : List Char) (entries : List (List Char)) : List (List Char) :=
  sortPaths ((entries.filter hasSupportedExt).map (pathJoin folder))

/-- The claim's reading: filter the entries by extension, sort them by
filename, then form the full paths. -/
def image_paths_spec (folder : List Char) (entries : List (List Char)) : List (List Char) :=
  (sortPaths (entries.filter hasSupportedExt)).map (pathJoin folder)

/-! ### Image loading (`load_image`, lines 12-26)

`Image.open` and decoding are external I/O, abstracted by a `decode` oracle
that returns `none` exactly when opening/decoding raises; `flat` abstracts
the composite-over-white, RGB conversion, and `ImageReader` construction
applied to a successfully opened image.  The `try`/`except` of lines 16-26
returns `None` on any failure. -/

def load_image {α ι ρ : Type} (decode : α → Option ι) (flat : ι → ρ)
    (path : α) : Option ρ :=
  match decode path with
  | some img => some (flat img)
  | none => none

/-! ### Parallel preloading (`preload_images`, lines 27-37)

`ThreadPoolExecutor.map` computes `load` on every input in some
scheduler-chosen completion order, storing each result into the slot of its
input position; the result list is read off by position once every slot is
filled.  The completion order is modelled explicitly as a list `order` of
input indices. -/

def runPool {α β : Type} (load : α → β) (paths : List α) :
    List Nat → List (Option β) → List (Option β)
  | [], slots => slots
  | i :: rest, slots =>
    runPool load paths rest (slots.set i ((paths[i]?).map load))

/-- Lines 32-37: run the pool to completion, then
`results = list(zip(image_paths, readers))`. -/
def preload_images {α β : Type} (load : α → β) (paths : List α)
    (order : List Nat) : List (α × β) :=
  paths.zip ((runPool load paths order (List.replicate paths.length none)).reduceOption)

/-! ### Page rendering (`create_pdf_from_folder`, lines 89-132)

Drawing is recorded abstractly: `drawImg p` for a successful `c.drawImage`
of the image loaded from path `p`, `placeholder s` for the
rectangle-plus-label fallback with label `s`, and `blank` for a cell left
empty.  `c.drawImage` may itself raise at render time (caught on
lines 107-110); this is abstracted by a `drawOk` oracle. -/

inductive CellOp (α : Type) where
  | drawImg : α → CellOp α
  | placeholder : String → CellOp α
  | blank : CellOp α
deriving DecidableEq

/-- The operation performed for one consumed entry `(path, reader)`
(lines 100-114). -/
def cellOpOf {α ρ : Type} (drawOk : ρ → Bool) (e : α × Option ρ) : CellOp α :=
  match e.2 with
  | some r =>
    if drawOk r then CellOp.drawImg e.1 else CellOp.placeholder "加载图片错误"
  | none => CellOp.placeholder "加载图片错误"

/-- The row/column cells of one page in row-major order (lines 92-93). -/
def pageCells : List (Nat × Nat) :=
  (List.range rows).flatMap fun (r : Nat) =>
    (List.range columns).map fun (c : Nat) => (r, c)

/-- All cells of the document in page-major, row-major order
(lines 90-93). -/
def allCells (pages : Nat) : List (Nat × Nat × Nat) :=
  (List.range pages).flatMap fun (p : Nat) =>
    pageCells.map fun rc => (p, rc.1, rc.2)

/-- The body of the triple loop (lines 94-120), carrying the running
`card_index` and the operations performed so far: while `card_index` is
below the total the next entry is consumed (image, or placeholder when its
reader is `None` or drawing fails) and the counter advances; afterwards the
cell is left blank. -/
def renderLoop {α ρ : Type} (loaded : List (α × Option ρ)) (drawOk : ρ → Bool) :
    List (Nat × Nat × Nat) → Nat × List (CellOp α) → Nat × List (CellOp α)
  | [], st => st
  | _ :: cells, (idx, ops) =>
    if h : idx < loaded.length then
      renderLoop loaded drawOk cells
        (idx + 1, ops ++ [cellOpOf drawOk (loaded.get ⟨idx, h⟩)])
    else
      renderLoop loaded drawOk cells (idx, ops ++ [CellOp.blank])

/-- Lines 89-132: final `card_index` and the cell operations of the whole
run, over `num_pages loaded.length` pages. -/
def renderAll {α ρ : Type} (loaded : List (α × Option ρ)) (drawOk : ρ → Bool) :
    Nat × List (CellOp α) :=
  renderLoop loaded drawOk (allCells (num_pages loaded.length)) (0, [])

/-- The operation the `k`-th cell (page-major, row-major) ends up with:
the `k`-th loaded entry while any remain, blank afterwards. -/
def producedOp {α ρ : Type} (loaded : List (α × Option ρ)) (drawOk : ρ → Bool)
    (k : Nat) : CellOp α :=
  ((loaded[k]?).map (cellOpOf drawOk)).getD CellOp.blank

/-! ### Alpha compositing (`load_image`, lines 17-23)

PIL's `alpha_composite` follows the Porter-Duff "over" rule; over the
opaque white background built on line 20 it yields alpha 255 and color
`c*(a/255) + 255*(1 - a/255)` per channel.  Channels are modelled as
rationals. -/

structure Pixel where
  r : ℚ
  g : ℚ
  b : ℚ
  a : ℚ
deriving DecidableEq

/-- One pixel of `Image.alpha_composite(background, img)` with the opaque
white background (lines 20-21). -/
def compositeOverWhite (p : Pixel) : Pixel :=
  { r := p.r * (p.a / 255) + 255 * (1 - p.a / 255)
    g := p.g * (p.a / 255) + 255 * (1 - p.a / 255)
    b := p.b * (p.a / 255) + 255 * (1 - p.a / 255)
    a := 255 }

/-- `composite.convert("RGB")` (line 23): drop the alpha channel. -/
def toRGB (p : Pixel) : ℚ × ℚ × ℚ := (p.r, p.g, p.b)

/-- The pixel-level effect of `load_image` on a successfully opened RGBA
image (lines 18-23): composite every pixel over white, then drop alpha. -/
def load_image_pixels (img : List Pixel) : List (ℚ × ℚ × ℚ) :=
  (img.map compositeOverWhite).map toRGB

end YgoPdf

namespace YgoPdf

/-- C1: the cell for `(row, col)` has its lower-left corner at exactly
`cell_x = left_margin + gap + col*(card_width+gap)` and
`cell_y = bottom_margin + gap + (rows-1-row)*(card_height+gap)`;
row 0 is nearest the top (largest y) and column 0 nearest the left
(smallest x). -/
theorem cell_placement_correct (row col : Nat) (hrow : row < 3) (hcol : col < 3) :
    cell_x col = left_margin + gap + (col : ℚ) * (card_width + gap) ∧
    cell_y row = bottom_margin + gap + ((rows : ℚ) - 1 - (row : ℚ)) * (card_height + gap) ∧
    (0 < row → cell_y row < cell_y 0) ∧
    (0 < col → cell_x 0 < cell_x col) := by
  refine ⟨rfl, ?_, ?_, ?_⟩
  · interval_cases row <;>
      norm_num [cell_y, rows]
  · intro h
    interval_cases row <;>
      norm_num [cell_y, rows, card_height, gap, mm, cm, inch] at h ⊢
  · intro h
    have hpos : (0 : ℚ) < card_width + gap := by
      norm_num [card_width, gap, mm, cm, inch]
    have hc : (0 : ℚ) < (col : ℚ) := by exact_mod_cast h
    simp only [cell_x, Nat.cast_zero, zero_mul]
    nlinarith

/-- Witness for C1 at `row = 2`, `col = 1`. -/
theorem cell_placement_correct_witness :
    cell_x 1 = left_margin + gap + ((1 : Nat) : ℚ) * (card_width + gap) ∧
    cell_y 2 = bottom_margin + gap + ((rows : ℚ) - 1 - ((2 : Nat) : ℚ)) * (card_height + gap) ∧
    (0 < 2 → cell_y 2 < cell_y 0) ∧
    (0 < 1 → cell_x 0 < cell_x 1) :=
  cell_placement_correct 2 1 (by decide) (by decide)

/-- C6: exactly `(columns+1)*(rows+1) = 16` cut-guide squares are drawn per
page, each a `gap` by `gap` square at a grid-line intersection, and no guide
square's interior meets the interior of any card's drawing rectangle. -/
theorem guide_squares_correct :
    guide_positions.length = 16 ∧
    (∀ g, g ∈ guide_positions ↔
      ∃ v h : Nat, v ≤ columns ∧ h ≤ rows ∧
        g = (left_margin + (v : ℚ) * (card_width + gap),
             bottom_margin + (h : ℚ) * (card_height + gap))) ∧
    ∀ g ∈ guide_positions, ∀ row col : Nat, row < 3 → col < 3 →
      ¬ rectsOverlapInterior g.1 g.2 gap gap
          (cell_x col) (cell_y row) card_width card_height := by
  refine ⟨rfl, ?_, ?_⟩
  · intro g
    constructor
    · intro hgmem
      rw [guide_positions, List.mem_flatMap] at hgmem
      obtain ⟨v, hvmem, hgm⟩ := hgmem
      obtain ⟨w, hwmem, hEq⟩ := List.mem_map.mp hgm
      exact ⟨v, w, Nat.lt_succ_iff.mp (List.mem_range.mp hvmem),
        Nat.lt_succ_iff.mp (List.mem_range.mp hwmem), hEq.symm⟩
    · rintro ⟨v, w, hv, hw, rfl⟩
      rw [guide_positions]
      exact List.mem_flatMap.mpr ⟨v, List.mem_range.mpr (Nat.lt_succ_of_le hv),
        List.mem_map_of_mem _ (List.mem_range.mpr (Nat.lt_succ_of_le hw))⟩
  · intro g hg row col _ hcol hover
    rw [guide_positions, List.mem_flatMap] at hg
    obtain ⟨v, hvmem, hgm⟩ := hg
    obtain ⟨w, hwmem, hEq⟩ := List.mem_map.mp hgm
    subst hEq
    obtain ⟨hx, -⟩ := hover
    have hgx : left_margin + (v : ℚ) * (card_width + gap) <
        cell_x col + card_width :=
      lt_of_le_of_lt (le_max_left _ _) (lt_of_lt_of_le hx (min_le_right _ _))
    have hcx : cell_x col <
        left_margin + (v : ℚ) * (card_width + gap) + gap :=
      lt_of_le_of_lt (le_max_right _ _) (lt_of_lt_of_le hx (min_le_left _ _))
    have hpos : (0 : ℚ) < card_width + gap := by
      norm_num [card_width, gap, mm, cm, inch]
    rcases le_or_lt v col with hvc | hvc
    · have : (v : ℚ) * (card_width + gap) ≤ (col : ℚ) * (card_width + gap) :=
        mul_le_mul_of_nonneg_right (by exact_mod_cast hvc) hpos.le
      simp only [cell_x] at hcx
      linarith
    · have : ((col : ℚ) + 1) * (card_width + gap) ≤ (v : ℚ) * (card_width + gap) := by
        have : ((col : ℚ) + 1) ≤ (v : ℚ) := by exact_mod_cast hvc
        exact mul_le_mul_of_nonneg_right this hpos.le
      simp only [cell_x] at hgx
      nlinarith

/-- Witness for C6: the guide square at `v = 1, h = 1` does not overlap the
interior of the card cell at `row = 0, col = 0`. -/
theorem guide_squares_correct_witness :
    (left_margin + ((1 : Nat) : ℚ) * (card_width + gap),
     bottom_margin + ((1 : Nat) : ℚ) * (card_height + gap)) ∈ guide_positions ∧
    ¬ rectsOverlapInterior
        (left_margin + ((1 : Nat) : ℚ) * (card_width + gap))
        (bottom_margin + ((1 : Nat) : ℚ) * (card_height + gap)) gap gap
        (cell_x 0) (cell_y 0) card_width card_height := by
  have hmem : (left_margin + ((1 : Nat) : ℚ) * (card_width + gap),
      bottom_margin + ((1 : Nat) : ℚ) * (card_height + gap)) ∈ guide_positions :=
    (guide_squares_correct.2.1 _).2 ⟨1, 1, by decide, by decide, rfl⟩
  exact ⟨hmem, guide_squares_correct.2.2 _ hmem 0 0 (by decide) (by decide)⟩

/-- C2: the number of pages equals `max 1 ⌈N/9⌉` (with `⌈N/9⌉ = (N+8)/9` in
natural division), and in particular N=0,9,10,18 give 1,1,2,2 pages. -/
theorem num_pages_eq_max_ceil :
    (∀ N : Nat, num_pages N = max 1 ((N + 8) / 9)) ∧
    num_pages 0 = 1 ∧ num_pages 9 = 1 ∧ num_pages 10 = 2 ∧ num_pages 18 = 2 := by
  refine ⟨fun N => ?_, by decide, by decide, by decide, by decide⟩
  simp only [num_pages, cards_per_page]
  split <;> omega

/-- C7: the grid is exactly 185mm x 266mm, and the margins center it on the
A4 page (equal space on both sides, and the grid fits on the page). -/
theorem grid_geometry_correct :
    grid_width = 185 * mm ∧ grid_height = 266 * mm ∧
    left_margin + grid_width + left_margin = page_width ∧
    bottom_margin + grid_height + bottom_margin = page_height ∧
    0 < left_margin ∧ 0 < bottom_margin := by
  refine ⟨?_, ?_, ?_, ?_, ?_, ?_⟩ <;>
    norm_num [grid_width, grid_height, left_margin, bottom_margin,
      page_width, page_height, card_width, card_height, gap, columns, rows,
      mm, cm, inch]

end YgoPdf

namespace YgoPdf

lemma lexLe_append (p a b : List Char) : lexLe (p ++ a) (p ++ b) = lexLe a b := by
  induction p with
  | nil => rfl
  | cons c p ih => simp [lexLe, ih]

lemma lexLe_pathJoin (d a b : List Char) :
    lexLe (pathJoin d a) (pathJoin d b) = lexLe a b := by
  have h : ∀ x : List Char, pathJoin d x = (d ++ ['/']) ++ x := by
    intro x
    simp [pathJoin]
  rw [h, h, lexLe_append]

lemma insertSorted_pathJoin (d x : List Char) (l : List (List Char)) :
    insertSorted (pathJoin d x) (l.map (pathJoin d)) =
      (insertSorted x l).map (pathJoin d) := by
  induction l with
  | nil => rfl
  | cons y ys ih =>
    simp only [List.map_cons, insertSorted, lexLe_pathJoin]
    cases hxy : lexLe x y <;> simp [hxy, ih]

lemma sortPaths_pathJoin (d : List Char) (l : List (List Char)) :
    sortPaths (l.map (pathJoin d)) = (sortPaths l).map (pathJoin d) := by
  induction l with
  | nil => rfl
  | cons x xs ih =>
    show insertSorted (pathJoin d x) (sortPaths (xs.map (pathJoin d))) =
      (insertSorted x (sortPaths xs)).map (pathJoin d)
    rw [ih, insertSorted_pathJoin]

lemma mem_insertSorted (a x : List Char) (l : List (List Char)) :
    a ∈ insertSorted x l ↔ a = x ∨ a ∈ l := by
  induction l with
  | nil => simp [insertSorted]
  | cons y ys ih =>
    simp only [insertSorted]
    cases hxy : lexLe x y <;> simp [ih] <;> tauto

lemma mem_sortPaths (a : List Char) (l : List (List Char)) :
    a ∈ sortPaths l ↔ a ∈ l := by
  induction l with
  | nil => simp [sortPaths]
  | cons x xs ih =>
    simp only [sortPaths, List.foldr_cons]
    rw [mem_insertSorted]
    simp only [sortPaths] at ih
    simp [ih]

/-- C3: the image paths the program considers are exactly the entries with a
supported extension (matched case-insensitively), as full paths, sorted
lexicographically by filename — sorting the full paths (what the code does)
equals sorting the filenames and then prefixing the folder, and nothing else
is included. -/
theorem image_paths_characterization (folder : List Char) (entries : List (List Char)) :
    image_paths_of folder entries = image_paths_spec folder entries ∧
    ∀ p, p ∈ image_paths_of folder entries ↔
      ∃ f, f ∈ entries ∧ hasSupportedExt f = true ∧ p = pathJoin folder f := by
  constructor
  · rw [image_paths_of, image_paths_spec, sortPaths_pathJoin]
  · intro p
    rw [image_paths_of, mem_sortPaths, List.mem_map]
    constructor
    · rintro ⟨f, hf, rfl⟩
      rw [List.mem_filter] at hf
      exact ⟨f, hf.1, hf.2, rfl⟩
    · rintro ⟨f, hf, hext, rfl⟩
      exact ⟨f, List.mem_filter.mpr ⟨hf, hext⟩, rfl⟩

end YgoPdf

namespace YgoPdf

lemma runPool_length {α β : Type} (load : α → β) (paths : List α)
    (order : List Nat) (slots : List (Option β)) :
    (runPool load paths order slots).length = slots.length := by
  induction order generalizing slots with
  | nil => rfl
  | cons i rest ih => simp [runPool, ih, List.length_set]

lemma runPool_getElem? {α β : Type} (load : α → β) (paths : List α)
    (order : List Nat) (slots : List (Option β)) (j : Nat)
    (hlen : slots.length = paths.length) :
    (runPool load paths order slots)[j]? =
      if j ∈ order ∧ j < paths.length then some ((paths[j]?).map load)
      else slots[j]? := by
  induction order generalizing slots with
  | nil => simp [runPool]
  | cons i rest ih =>
    rw [runPool, ih _ (by rw [List.length_set, hlen]), List.getElem?_set]
    by_cases hA : j ∈ rest ∧ j < paths.length
    · simp [hA, List.mem_cons, hA.1, hA.2]
    · by_cases hij : i = j
      · subst hij
        by_cases hjn : i < paths.length
        · simp [hA, hjn, hlen, List.mem_cons]
        · have hnone : slots[i]? = none := List.getElem?_eq_none (by omega)
          simp [hA, hjn, hlen, hnone, List.mem_cons]
      · have hcond : ¬ ((j = i ∨ j ∈ rest) ∧ j < paths.length) := by
          rintro ⟨hji | hjr, hjlt⟩
          · exact hij hji.symm
          · exact hA ⟨hjr, hjlt⟩
        simp [hA, hij, hcond]

lemma runPool_complete {α β : Type} (load : α → β) (paths : List α)
    (order : List Nat) (hcov : ∀ j, j < paths.length → j ∈ order) :
    runPool load paths order (List.replicate paths.length none) =
      paths.map (fun p => some (load p)) := by
  apply List.ext_getElem?
  intro j
  rw [runPool_getElem? load paths order _ j (by simp), List.getElem?_map]
  by_cases hj : j < paths.length
  · simp [hj, hcov j hj, List.getElem?_eq_getElem hj]
  · have h1 : paths[j]? = none := List.getElem?_eq_none (by omega)
    have h2 : (List.replicate paths.length (none : Option β))[j]? = none :=
      List.getElem?_eq_none (by simp only [List.length_replicate]; omega)
    simp [hj, h1, h2]

lemma reduceOption_map_some {α β : Type} (f : α → β) (l : List α) :
    (l.map (fun a => some (f a))).reduceOption = l.map f := by
  induction l with
  | nil => rfl
  | cons x xs ih => simp [List.reduceOption_cons_of_some, ih]

lemma preload_images_eq_zip {α β : Type} (load : α → β) (paths : List α)
    (order : List Nat) (horder : order.Perm (List.range paths.length)) :
    preload_images load paths order = paths.zip (paths.map load) := by
  have hcov : ∀ j, j < paths.length → j ∈ order := fun j hj =>
    horder.mem_iff.mpr (List.mem_range.mpr hj)
  rw [preload_images, runPool_complete load paths order hcov, reduceOption_map_some]

/-- C4: for every completion order of the parallel loads (any permutation of
the input positions), `preload_images` returns a sequence of the same length
and order as the input, pairing the i-th path with the result of loading the
i-th path. -/
theorem preload_preserves_order {α β : Type} (load : α → β) (paths : List α)
    (order : List Nat) (horder : order.Perm (List.range paths.length)) :
    preload_images load paths order = paths.zip (paths.map load) ∧
    (preload_images load paths order).map Prod.fst = paths ∧
    (preload_images load paths order).length = paths.length := by
  have h1 := preload_images_eq_zip load paths order horder
  refine ⟨h1, ?_, ?_⟩
  · rw [h1]
    exact List.map_fst_zip _ _ (by simp)
  · rw [h1, List.length_zip]
    simp

/-- Witness for C4: three loads completing in the order 2, 0, 1 still yield
the results in input order. -/
theorem preload_preserves_order_witness :
    preload_images (fun n : Nat => n + 1) [10, 20, 30] [2, 0, 1] =
      [10, 20, 30].zip ([10, 20, 30].map (fun n : Nat => n + 1)) ∧
    (preload_images (fun n : Nat => n + 1) [10, 20, 30] [2, 0, 1]).map Prod.fst =
      [10, 20, 30] ∧
    (preload_images (fun n : Nat => n + 1) [10, 20, 30] [2, 0, 1]).length =
      [10, 20, 30].length :=
  preload_preserves_order (fun n : Nat => n + 1) [10, 20, 30] [2, 0, 1] (by decide)

end YgoPdf

namespace YgoPdf

lemma producedOp_of_lt {α ρ : Type} (loaded : List (α × Option ρ)) (drawOk : ρ → Bool)
    (k : Nat) (h : k < loaded.length) :
    producedOp loaded drawOk k = cellOpOf drawOk (loaded.get ⟨k, h⟩) := by
  simp [producedOp, List.getElem?_eq_getElem h, List.get_eq_getElem]

lemma producedOp_of_ge {α ρ : Type} (loaded : List (α × Option ρ)) (drawOk : ρ → Bool)
    (k : Nat) (h : loaded.length ≤ k) :
    producedOp loaded drawOk k = CellOp.blank := by
  simp [producedOp, List.getElem?_eq_none h]

lemma renderLoop_spec {α ρ : Type} (loaded : List (α × Option ρ)) (drawOk : ρ → Bool)
    (cells : List (Nat × Nat × Nat)) (idx : Nat) (ops : List (CellOp α))
    (hidx : idx ≤ loaded.length) :
    renderLoop loaded drawOk cells (idx, ops) =
      (min loaded.length (idx + cells.length),
       ops ++ (List.range cells.length).map fun j => producedOp loaded drawOk (idx + j)) := by
  induction cells generalizing idx ops with
  | nil =>
    simp [renderLoop, Nat.min_eq_right hidx]
  | cons c cells ih =>
    rw [renderLoop]
    by_cases h : idx < loaded.length
    · rw [dif_pos h, ih _ _ (by omega)]
      simp only [List.length_cons, Prod.mk.injEq]
      refine ⟨by omega, ?_⟩
      rw [List.append_assoc, List.singleton_append, List.range_succ_eq_map,
        List.map_cons, List.map_map]
      congr 1
      simp only [Nat.add_zero]
      rw [producedOp_of_lt loaded drawOk idx h]
      congr 1
      apply List.map_congr_left
      intro j _
      simp only [Function.comp]
      congr 1
      omega
    · rw [dif_neg h, ih _ _ hidx]
      have hidxn : idx = loaded.length := by omega
      subst hidxn
      simp only [List.length_cons, Prod.mk.injEq]
      refine ⟨by omega, ?_⟩
      rw [List.append_assoc, List.singleton_append, List.range_succ_eq_map,
        List.map_cons, List.map_map]
      congr 1
      simp only [Nat.add_zero]
      rw [producedOp_of_ge loaded drawOk loaded.length (le_refl _)]
      congr 1
      apply List.map_congr_left
      intro j _
      simp only [Function.comp]
      rw [producedOp_of_ge loaded drawOk _ (by omega),
        producedOp_of_ge loaded drawOk _ (by omega)]

lemma allCells_length (pages : Nat) : (allCells pages).length = pages * 9 := by
  induction pages with
  | zero => rfl
  | succ p ih =>
    rw [allCells, List.range_succ, List.flatMap_append]
    rw [allCells] at ih
    simp only [List.length_append, ih, List.flatMap_cons, List.flatMap_nil,
      List.append_nil, List.length_map]
    have hpc : pageCells.length = 9 := rfl
    omega

lemma total_le_cells (n : Nat) : n ≤ num_pages n * 9 := by
  simp only [num_pages, cards_per_page]
  split <;> omega

lemma renderAll_spec {α ρ : Type} (loaded : List (α × Option ρ)) (drawOk : ρ → Bool) :
    renderAll loaded drawOk =
      (loaded.length,
       (List.range (num_pages loaded.length * 9)).map (producedOp loaded drawOk)) := by
  rw [renderAll, renderLoop_spec loaded drawOk _ 0 [] (Nat.zero_le _)]
  simp only [allCells_length, List.nil_append, Nat.zero_add, Prod.mk.injEq]
  have hle := total_le_cells loaded.length
  exact ⟨by omega, trivial⟩

lemma renderAll_ops_getElem? {α ρ : Type} (loaded : List (α × Option ρ))
    (drawOk : ρ → Bool) (k : Nat) :
    (renderAll loaded drawOk).2[k]? =
      if k < loaded.length then (loaded[k]?).map (cellOpOf drawOk)
      else if k < num_pages loaded.length * 9 then some CellOp.blank
      else none := by
  rw [renderAll_spec, List.getElem?_map]
  have hle := total_le_cells loaded.length
  by_cases hkM : k < num_pages loaded.length * 9
  · rw [List.getElem?_range hkM]
    rw [show Option.map (producedOp loaded drawOk) (some k) =
      some (producedOp loaded drawOk k) from rfl]
    by_cases hkn : k < loaded.length
    · rw [producedOp_of_lt loaded drawOk k hkn, if_pos hkn,
        List.getElem?_eq_getElem hkn]
      rw [show Option.map (cellOpOf drawOk) (some loaded[k]) =
        some (cellOpOf drawOk loaded[k]) from rfl]
      simp [List.get_eq_getElem]
    · rw [producedOp_of_ge loaded drawOk k (by omega), if_neg hkn, if_pos hkM]
  · have hnone : (List.range (num_pages loaded.length * 9))[k]? = none :=
      List.getElem?_eq_none (by simp only [List.length_range]; omega)
    rw [hnone]
    have hkn : ¬ k < loaded.length := by omega
    simp [hkn, hkM]

/-- C9: the renderer consumes the loaded entries exactly once and in order:
the final `card_index` equals the number of entries, one operation is
produced per cell over all pages, the k-th cell in page-major, row-major
order receives the k-th loaded entry for every k below the total, and every
later cell is left blank. -/
theorem render_consumes_in_order {α ρ : Type} (loaded : List (α × Option ρ))
    (drawOk : ρ → Bool) :
    (renderAll loaded drawOk).1 = loaded.length ∧
    (renderAll loaded drawOk).2.length = num_pages loaded.length * cards_per_page ∧
    ∀ k, (renderAll loaded drawOk).2[k]? =
      if k < loaded.length then (loaded[k]?).map (cellOpOf drawOk)
      else if k < num_pages loaded.length * cards_per_page then some CellOp.blank
      else none := by
  refine ⟨by rw [renderAll_spec], ?_, ?_⟩
  · rw [renderAll_spec]
    simp [cards_per_page]
  · intro k
    rw [renderAll_ops_getElem?]
    rfl

end YgoPdf

namespace YgoPdf

lemma zip_map_self {α β : Type} (g : α → β) (l : List α) :
    l.zip (l.map g) = l.map fun a => (a, g a) := by
  induction l with
  | nil => rfl
  | cons x xs ih => simp [ih]

lemma preload_images_eq_map {α β : Type} (load : α → β) (paths : List α)
    (order : List Nat) (horder : order.Perm (List.range paths.length)) :
    preload_images load paths order = paths.map fun q => (q, load q) := by
  rw [preload_images_eq_zip load paths order horder, zip_map_self]

/-- C5: a path whose open/decode fails loads as `None` (the exception is
caught, not propagated); the renderer draws the placeholder label
"加载图片错误" in that cell; and the run completes with the full page
count `max 1 ⌈N/9⌉` worth of cells. -/
theorem load_failure_renders_placeholder {ι ρ : Type}
    (decode : List Char → Option ι) (flat : ι → ρ) (drawOk : ρ → Bool)
    (paths : List (List Char)) (order : List Nat)
    (horder : order.Perm (List.range paths.length))
    (k : Nat) (p : List Char) (hk : paths[k]? = some p)
    (hfail : decode p = none) :
    load_image decode flat p = none ∧
    (renderAll (preload_images (load_image decode flat) paths order) drawOk).2[k]? =
      some (CellOp.placeholder "加载图片错误") ∧
    (renderAll (preload_images (load_image decode flat) paths order) drawOk).2.length =
      num_pages paths.length * cards_per_page ∧
    num_pages paths.length = max 1 ((paths.length + 8) / 9) := by
  have hload : load_image decode flat p = none := by
    rw [load_image, hfail]
  have hmap : preload_images (load_image decode flat) paths order =
      paths.map fun q => (q, load_image decode flat q) :=
    preload_images_eq_map _ _ _ horder
  obtain ⟨hklt, -⟩ := List.getElem?_eq_some.mp hk
  have hlen : (preload_images (load_image decode flat) paths order).length =
      paths.length := by
    rw [hmap, List.length_map]
  have hzk : (preload_images (load_image decode flat) paths order)[k]? =
      some (p, load_image decode flat p) := by
    rw [hmap, List.getElem?_map, hk]
    rfl
  refine ⟨hload, ?_, ?_, ?_⟩
  · rw [renderAll_ops_getElem?, hlen, if_pos hklt, hzk, hload]
    rfl
  · rw [renderAll_spec, hlen]
    simp [cards_per_page]
  · simp only [num_pages, cards_per_page]
    split <;> omega

/-- Witness for C5: a one-image run whose only decode fails yields `None`
from the loader, a placeholder cell, and one full page of cells. -/
theorem load_failure_renders_placeholder_witness :
    load_image (fun _ : List Char => (none : Option Unit)) (fun u : Unit => u)
      ("a".data) = none ∧
    (renderAll (preload_images
        (load_image (fun _ : List Char => (none : Option Unit)) (fun u : Unit => u))
        ["a".data] [0]) (fun _ : Unit => true)).2[0]? =
      some (CellOp.placeholder "加载图片错误") ∧
    (renderAll (preload_images
        (load_image (fun _ : List Char => (none : Option Unit)) (fun u : Unit => u))
        ["a".data] [0]) (fun _ : Unit => true)).2.length =
      num_pages (["a".data] : List (List Char)).length * cards_per_page ∧
    num_pages (["a".data] : List (List Char)).length =
      max 1 (((["a".data] : List (List Char)).length + 8) / 9) :=
  load_failure_renders_placeholder (fun _ : List Char => (none : Option Unit))
    (fun u : Unit => u) (fun _ : Unit => true) ["a".data] [0] (by decide)
    0 ("a".data) rfl rfl

/-- C10: when drawing a successfully loaded (non-`None`) image raises at
render time, the renderer records the placeholder operation with label
"加载图片错误" for that cell instead, and the run continues to completion
(all cells of all pages are produced and every entry is consumed). -/
theorem draw_failure_renders_placeholder {α ρ : Type}
    (loaded : List (α × Option ρ)) (drawOk : ρ → Bool) (k : Nat) (p : α) (r : ρ)
    (hk : loaded[k]? = some (p, some r)) (hfail : drawOk r = false) :
    (renderAll loaded drawOk).2[k]? = some (CellOp.placeholder "加载图片错误") ∧
    (renderAll loaded drawOk).2.length = num_pages loaded.length * cards_per_page ∧
    (renderAll loaded drawOk).1 = loaded.length := by
  obtain ⟨hklt, -⟩ := List.getElem?_eq_some.mp hk
  refine ⟨?_, ?_, by rw [renderAll_spec]⟩
  · rw [renderAll_ops_getElem?, if_pos hklt, hk]
    simp [cellOpOf, hfail]
  · rw [renderAll_spec]
    simp [cards_per_page]

/-- Witness for C10: one loaded image whose draw fails becomes a
placeholder cell on a run of one full page. -/
theorem draw_failure_renders_placeholder_witness :
    (renderAll [((0 : Nat), some (0 : Nat))] (fun _ : Nat => false)).2[0]? =
      some (CellOp.placeholder "加载图片错误") ∧
    (renderAll [((0 : Nat), some (0 : Nat))] (fun _ : Nat => false)).2.length =
      num_pages ([((0 : Nat), some (0 : Nat))] : List (Nat × Option Nat)).length *
        cards_per_page ∧
    (renderAll [((0 : Nat), some (0 : Nat))] (fun _ : Nat => false)).1 =
      ([((0 : Nat), some (0 : Nat))] : List (Nat × Option Nat)).length :=
  draw_failure_renders_placeholder [((0 : Nat), some (0 : Nat))]
    (fun _ : Nat => false) 0 0 0 rfl rfl

/-- C8: for a fully opaque image (alpha 255 at every pixel), compositing
over the opaque white background and dropping the alpha channel is the
identity: the loader's pixel output equals the input's RGB channels. -/
theorem opaque_composite_identity (img : List Pixel) (hop : ∀ p ∈ img, p.a = 255) :
    load_image_pixels img = img.map toRGB := by
  rw [load_image_pixels, List.map_map]
  apply List.map_congr_left
  intro p hp
  have ha := hop p hp
  simp only [Function.comp, compositeOverWhite, toRGB, ha]
  norm_num [Prod.mk.injEq]

/-- Witness for C8 at a single opaque pixel. -/
theorem opaque_composite_identity_witness :
    load_image_pixels [⟨10, 20, 30, 255⟩] = [(⟨10, 20, 30, 255⟩ : Pixel)].map toRGB :=
  opaque_composite_identity [⟨10, 20, 30, 255⟩] (by
    intro p hp
    rw [List.mem_singleton] at hp
    subst hp
    rfl)

end YgoPdf

namespace YgoPdf

/-- Witness for C2 at `N = 10`. -/
theorem num_pages_eq_max_ceil_witness : num_pages 10 = max 1 ((10 + 8) / 9) :=
  num_pages_eq_max_ceil.1 10

/-- Witness for C3 on a concrete directory listing. -/
theorem image_paths_characterization_witness :
    image_paths_of ("dir".data) ["b.PNG".data, "a.jpg".data, "c.txt".data] =
      image_paths_spec ("dir".data) ["b.PNG".data, "a.jpg".data, "c.txt".data] :=
  (image_paths_characterization ("dir".data)
    ["b.PNG".data, "a.jpg".data, "c.txt".data]).1

/-- Witness for C9 on a one-entry run. -/
theorem render_consumes_in_order_witness :
    (renderAll [((1 : Nat), (none : Option Nat))] (fun _ : Nat => true)).1 =
      ([((1 : Nat), (none : Option Nat))] : List (Nat × Option Nat)).length :=
  (render_consumes_in_order [((1 : Nat), (none : Option Nat))] (fun _ : Nat => true)).1

end YgoPdf
